import Mathlib

/-!
Shallow embedding of `src/packages/styled-components/src/sheet/Tag.js`.

The file models the three Tag backends (`VirtualTag`, `TextTag`, `CSSOMTag`)
and the `makeTag` selector.  JavaScript arrays are modelled as `List String`,
JavaScript numbers used as indices/lengths as `Int` (the `length` counter can
go negative via `deleteRule`), and `Array.prototype.splice` / DOM
`insertBefore` index arithmetic is reproduced explicitly.  A JavaScript
expression that evaluates to `undefined` instead of a string, or a call that
throws, is modelled with `Option` (`none`), as noted at each definition.
-/

namespace StyledSheet

/-- JavaScript indexed read `l[i]` on an array (or NodeList): a string when
`0 ≤ i < l.length`, otherwise `undefined`, modelled as `none`. -/
def jsGet (l : List String) (i : Int) : Option String :=
  if h : 0 ≤ i ∧ i < (l.length : Int) then some (l.get ⟨i.toNat, by omega⟩) else none

/-- Insert `x` at position `n` of `l` (append when `n ≥ l.length`). -/
def listInsertAt : List String → Nat → String → List String
  | l, 0, x => x :: l
  | [], _ + 1, x => [x]
  | a :: l, n + 1, x => a :: listInsertAt l n x

/-- Remove the element at position `n` of `l` (no change when `n ≥ l.length`). -/
def listRemoveAt : List String → Nat → List String
  | [], _ => []
  | _ :: l, 0 => l
  | a :: l, n + 1 => a :: listRemoveAt l n

/-- The actual start position used by `Array.prototype.splice(i, ...)`:
negative indices count from the end and are clamped to `0`, non-negative
ones are clamped to the array length. -/
def spliceStart (len : Nat) (i : Int) : Nat :=
  if i < 0 then ((len : Int) + i).toNat else min i.toNat len

/-- `l.splice(i, 0, x)`: insert `x` at the clamped position. -/
def spliceInsert (l : List String) (i : Int) (x : String) : List String :=
  listInsertAt l (spliceStart l.length i) x

/-- `l.splice(i, 1)`: remove the element at the clamped position, if any. -/
def spliceDelete (l : List String) (i : Int) : List String :=
  listRemoveAt l (spliceStart l.length i)

/-- DOM `parent.insertBefore(group, parent.childNodes[i] or null)` on a node
list modelled as `l`: when `l[i]` is a node the group lands before it; when
`l[i]` is `undefined` (converted to `null`) the group is appended. -/
def domInsertBefore (l : List String) (i : Int) (xs : List String) : List String :=
  match jsGet l i with
  | some _ => l.take i.toNat ++ xs ++ l.drop i.toNat
  | none => l ++ xs

namespace VirtualTag

/-- State of `VirtualTag`: the in-memory `rules` array and the `length`
counter field (an `Int`, since `deleteRule` decrements it unconditionally). -/
structure State where
  rules : List String
  length : Int
  deriving Repr, DecidableEq

/-- The `VirtualTag` constructor: `rules = []`, `length = 0`. -/
def fresh : State := ⟨[], 0⟩

/-- Consistency of the counter with the store: `length` equals the number of
rules actually held. -/
def Wf (st : State) : Prop := st.length = (st.rules.length : Int)

/-- `VirtualTag.insertRule`: the source checks only `index <= this.length`
(no lower bound), then splices the rule in and increments `length`. -/
def insertRule (st : State) (index : Int) (rule : String) : Bool × State :=
  if index ≤ st.length then
    (true, ⟨spliceInsert st.rules index rule, st.length + 1⟩)
  else
    (false, st)

/-- `VirtualTag.insertRules`: loop over the rules calling `insertRule`,
advancing the target index and the count only on success. -/
def insertRules (st : State) (startRuleIndex : Int) (rules : List String) : Nat × State :=
  match rules with
  | [] => (0, st)
  | r :: rs =>
    let p := insertRule st startRuleIndex r
    if p.1 then
      let q := insertRules p.2 (startRuleIndex + 1) rs
      (q.1 + 1, q.2)
    else
      let q := insertRules p.2 startRuleIndex rs
      (q.1, q.2)

/-- `VirtualTag.deleteRule`: `rules.splice(index, 1)` and an unconditional
`length--`. -/
def deleteRule (st : State) (index : Int) : State :=
  ⟨spliceDelete st.rules index, st.length - 1⟩

/-- `VirtualTag.getRule`: when `index < this.length` it returns
`this.rules[index]` — which is the JavaScript value `undefined` (`none`)
when `index` is negative or past the array — otherwise the string `""`. -/
def getRule (st : State) (index : Int) : Option String :=
  if index < st.length then jsGet st.rules index else some ""

end VirtualTag

namespace TextTag

/-- State of `TextTag`: the `childNodes` of the style element (each node
carries one rule's text) and the `length` counter field. -/
structure State where
  nodes : List String
  length : Int
  deriving Repr, DecidableEq

/-- The `TextTag` constructor: an empty style element, `length = 0`. -/
def fresh : State := ⟨[], 0⟩

/-- Consistency of the counter with the store: `length` equals the number of
child nodes. -/
def Wf (st : State) : Prop := st.length = (st.nodes.length : Int)

/-- `TextTag.insertRule`: guarded by `index <= this.length && index >= 0`;
on success a new text node is inserted before `this.nodes[index]` (appended
when that read is `undefined`) and `length` is incremented. -/
def insertRule (st : State) (index : Int) (rule : String) : Bool × State :=
  if index ≤ st.length ∧ 0 ≤ index then
    (true, ⟨domInsertBefore st.nodes index [rule], st.length + 1⟩)
  else
    (false, st)

/-- `TextTag.insertRules`: build all the text nodes inside a detached
fragment in order (each loop step appends, since `fragmentNodes[i]` is
`undefined` at step `i`), then attach the whole fragment before
`this.nodes[startRuleIndex]` in one operation; `insertCount` is the fragment
size, i.e. `rules.length`, and `length` grows by it.  No bounds check. -/
def insertRules (st : State) (startRuleIndex : Int) (rules : List String) : Nat × State :=
  (rules.length, ⟨domInsertBefore st.nodes startRuleIndex rules, st.length + rules.length⟩)

/-- `TextTag.deleteRule`: `removeChild(this.nodes[index])` then `length--`.
When `this.nodes[index]` is `undefined`, `removeChild` throws a `TypeError`
before `length--` runs; the throw is modelled as `none`. -/
def deleteRule (st : State) (index : Int) : Option State :=
  match jsGet st.nodes index with
  | some _ => some ⟨listRemoveAt st.nodes index.toNat, st.length - 1⟩
  | none => none

/-- `TextTag.getRule`: when `index < this.length` it evaluates
`this.nodes[index].textContent` — a `TypeError` (`none`) when that read is
`undefined` — otherwise the string `""`. -/
def getRule (st : State) (index : Int) : Option String :=
  if index < st.length then jsGet st.nodes index else some ""

end TextTag

namespace CSSOMTag

/-- State of `CSSOMTag`: the native sheet's `cssRules` and the `length`
counter field.  The placeholder text node appended by the constructor and
the `getSheet` acquisition are environment plumbing with no effect on this
state. -/
structure State where
  cssRules : List String
  length : Int
  deriving Repr, DecidableEq

/-- The `CSSOMTag` constructor: a freshly acquired empty sheet, `length = 0`. -/
def fresh : State := ⟨[], 0⟩

/-- Consistency of the counter with the store: `length` equals the number of
rules held by the native sheet. -/
def Wf (st : State) : Prop := st.length = (st.cssRules.length : Int)

/-- Modelled from the spec: the native engine's `sheet.insertRule(rule, index)`
primitive, which is not under `src/`.  It parses `rule` and may reject it
(engine-specific, modelled by the predicate `accept`), throws on an index
outside `[0, cssRules.length]`, and is atomic per call; a throw is `none`. -/
def sheetInsertRule (accept : String → Bool) (cssRules : List String)
    (rule : String) (index : Int) : Option (List String) :=
  if 0 ≤ index ∧ index ≤ (cssRules.length : Int) ∧ accept rule then
    some (listInsertAt cssRules index.toNat rule)
  else
    none

/-- Modelled from the spec: the native engine's `sheet.deleteRule(index)`
primitive, which is not under `src/`; it throws (`none`) on an index outside
`[0, cssRules.length)`. -/
def sheetDeleteRule (cssRules : List String) (index : Int) : Option (List String) :=
  if 0 ≤ index ∧ index < (cssRules.length : Int) then
    some (listRemoveAt cssRules index.toNat)
  else
    none

/-- `CSSOMTag.insertRule`: `try` the native insert, incrementing `length`
and returning `true` on success; any engine throw is caught and turned into
`false` with no mutation. -/
def insertRule (accept : String → Bool) (st : State) (index : Int)
    (rule : String) : Bool × State :=
  match sheetInsertRule accept st.cssRules rule index with
  | some newRules => (true, ⟨newRules, st.length + 1⟩)
  | none => (false, st)

/-- `CSSOMTag.insertRules`: loop over the rules calling `insertRule`,
advancing the target index and the count only on success. -/
def insertRules (accept : String → Bool) (st : State) (startRuleIndex : Int)
    (rules : List String) : Nat × State :=
  match rules with
  | [] => (0, st)
  | r :: rs =>
    let p := insertRule accept st startRuleIndex r
    if p.1 then
      let q := insertRules accept p.2 (startRuleIndex + 1) rs
      (q.1 + 1, q.2)
    else
      let q := insertRules accept p.2 startRuleIndex rs
      (q.1, q.2)

/-- `CSSOMTag.deleteRule`: the native delete (whose throw propagates to the
caller, modelled as `none`) followed by `length--`. -/
def deleteRule (st : State) (index : Int) : Option State :=
  (sheetDeleteRule st.cssRules index).map (fun rs => ⟨rs, st.length - 1⟩)

/-- `CSSOMTag.getRule`: read `this.sheet.cssRules[index]`; if the rule
object is present and its `cssText` is a string, return it, else `""`.  In
the model every stored rule is readable, so an out-of-range read yields `""`. -/
def getRule (st : State) (index : Int) : String :=
  (jsGet st.cssRules index).getD ""

end CSSOMTag

/-- The configuration consumed by `makeTag` (the `target` element is passed
through to the DOM helpers and does not influence the choice or the state). -/
structure SheetOptions where
  isServer : Bool
  useCSSOMInjection : Bool
  deriving Repr, DecidableEq

/-- A constructed Tag: exactly one backend instance. -/
inductive Tag where
  | virtualTag (st : VirtualTag.State)
  | cssomTag (st : CSSOMTag.State)
  | textTag (st : TextTag.State)
  deriving Repr, DecidableEq

/-- `makeTag`: pick a backend by the source's fixed priority and construct it. -/
def makeTag (o : SheetOptions) : Tag :=
  if o.isServer then
    Tag.virtualTag VirtualTag.fresh
  else if o.useCSSOMInjection then
    Tag.cssomTag CSSOMTag.fresh
  else
    Tag.textTag TextTag.fresh

/-- One mutating contract operation, for reasoning about call sequences. -/
inductive Op where
  | insertOne (index : Int) (rule : String)
  | insertMany (index : Int) (rules : List String)
  | deleteOne (index : Int)
  deriving Repr, DecidableEq

/-- Number of `deleteOne` operations in a trace. -/
def countDeletes : List Op → Nat
  | [] => 0
  | Op.deleteOne _ :: ops => countDeletes ops + 1
  | _ :: ops => countDeletes ops

namespace VirtualTag

/-- Run a trace of operations on a `VirtualTag`, returning the final state
and the total number of successful single-rule inserts (each `insertRules`
call contributing its returned count). -/
def runOps : State → List Op → State × Nat
  | st, [] => (st, 0)
  | st, Op.insertOne i r :: ops =>
    let p := insertRule st i r
    let q := runOps p.2 ops
    (q.1, (if p.1 then 1 else 0) + q.2)
  | st, Op.insertMany i rs :: ops =>
    let p := insertRules st i rs
    let q := runOps p.2 ops
    (q.1, p.1 + q.2)
  | st, Op.deleteOne i :: ops => runOps (deleteRule st i) ops

/-- Every `deleteOne` in the trace respects the precondition
`0 ≤ index < length` at its point of execution. -/
def validOps : State → List Op → Bool
  | _, [] => true
  | st, Op.insertOne i r :: ops => validOps (insertRule st i r).2 ops
  | st, Op.insertMany i rs :: ops => validOps (insertRules st i rs).2 ops
  | st, Op.deleteOne i :: ops =>
    decide (0 ≤ i) && decide (i < st.length) && validOps (deleteRule st i) ops

end VirtualTag

namespace TextTag

/-- Run a trace of operations on a `TextTag`; `none` when a delete throws. -/
def runOps : State → List Op → Option (State × Nat)
  | st, [] => some (st, 0)
  | st, Op.insertOne i r :: ops =>
    let p := insertRule st i r
    (runOps p.2 ops).map (fun q => (q.1, (if p.1 then 1 else 0) + q.2))
  | st, Op.insertMany i rs :: ops =>
    let p := insertRules st i rs
    (runOps p.2 ops).map (fun q => (q.1, p.1 + q.2))
  | st, Op.deleteOne i :: ops =>
    match deleteRule st i with
    | some st2 => runOps st2 ops
    | none => none

/-- Every `deleteOne` in the trace respects the precondition
`0 ≤ index < length` at its point of execution. -/
def validOps : State → List Op → Bool
  | _, [] => true
  | st, Op.insertOne i r :: ops => validOps (insertRule st i r).2 ops
  | st, Op.insertMany i rs :: ops => validOps (insertRules st i rs).2 ops
  | st, Op.deleteOne i :: ops =>
    decide (0 ≤ i) && decide (i < st.length) &&
      (match deleteRule st i with
       | some st2 => validOps st2 ops
       | none => false)

end TextTag

namespace CSSOMTag

/-- Run a trace of operations on a `CSSOMTag` against the engine's
acceptance behaviour `accept`; `none` when a delete throws. -/
def runOps (accept : String → Bool) : State → List Op → Option (State × Nat)
  | st, [] => some (st, 0)
  | st, Op.insertOne i r :: ops =>
    let p := insertRule accept st i r
    (runOps accept p.2 ops).map (fun q => (q.1, (if p.1 then 1 else 0) + q.2))
  | st, Op.insertMany i rs :: ops =>
    let p := insertRules accept st i rs
    (runOps accept p.2 ops).map (fun q => (q.1, p.1 + q.2))
  | st, Op.deleteOne i :: ops =>
    match deleteRule st i with
    | some st2 => runOps accept st2 ops
    | none => none

/-- Every `deleteOne` in the trace respects the precondition
`0 ≤ index < length` at its point of execution. -/
def validOps (accept : String → Bool) : State → List Op → Bool
  | _, [] => true
  | st, Op.insertOne i r :: ops => validOps accept (insertRule accept st i r).2 ops
  | st, Op.insertMany i rs :: ops => validOps accept (insertRules accept st i rs).2 ops
  | st, Op.deleteOne i :: ops =>
    decide (0 ≤ i) && decide (i < st.length) &&
      (match deleteRule st i with
       | some st2 => validOps accept st2 ops
       | none => false)

end CSSOMTag

/-- Structural counterpart of `jsGet` for non-negative positions. -/
def natGet : List String → Nat → Option String
  | [], _ => none
  | a :: _, 0 => some a
  | _ :: l, n + 1 => natGet l n

/-- Spec-side definition for the refinement claim about batch inserts: the
final state of `rs.length` sequential `insertRule` calls on a `VirtualTag`
starting at index `s`, each subsequent insert at the next higher index. -/
def seqInsertVirtual : VirtualTag.State → Int → List String → VirtualTag.State
  | st, _, [] => st
  | st, s, r :: rs => seqInsertVirtual (VirtualTag.insertRule st s r).2 (s + 1) rs

/-- Spec-side definition for the refinement claim about batch inserts: the
final state of `rs.length` sequential `insertRule` calls on a `TextTag`
starting at index `s`, each subsequent insert at the next higher index. -/
def seqInsertText : TextTag.State → Int → List String → TextTag.State
  | st, _, [] => st
  | st, s, r :: rs => seqInsertText (TextTag.insertRule st s r).2 (s + 1) rs

/-! Auxiliary lemmas about the list primitives. -/

theorem natGet_eq_get : ∀ (l : List String) (n : Nat) (h : n < l.length),
    natGet l n = some (l.get ⟨n, h⟩)
  | _ :: _, 0, _ => rfl
  | _ :: l, n + 1, h => natGet_eq_get l n (by simpa using h)

theorem natGet_eq_none : ∀ (l : List String) (n : Nat), l.length ≤ n → natGet l n = none
  | [], _, _ => rfl
  | _ :: l, n + 1, h => natGet_eq_none l n (by simpa using h)

theorem jsGet_eq_natGet (l : List String) (i : Int) (hi : 0 ≤ i) :
    jsGet l i = natGet l i.toNat := by
  by_cases h : i < (l.length : Int)
  · have hlt : i.toNat < l.length := by omega
    simp [jsGet, hi, h, natGet_eq_get l i.toNat hlt]
  · have hge : l.length ≤ i.toNat := by omega
    simp [jsGet, natGet_eq_none l i.toNat hge, h]

theorem jsGet_of_neg (l : List String) (i : Int) (hi : i < 0) : jsGet l i = none := by
  simp [jsGet]
  omega

theorem jsGet_of_ge (l : List String) (i : Int) (hi : (l.length : Int) ≤ i) :
    jsGet l i = none := by
  simp [jsGet]
  omega

theorem listInsertAt_length : ∀ (l : List String) (n : Nat) (x : String),
    (listInsertAt l n x).length = l.length + 1
  | _, 0, _ => by simp [listInsertAt]
  | [], _ + 1, _ => by simp [listInsertAt]
  | _ :: l, n + 1, x => by simp [listInsertAt, listInsertAt_length l n x]

theorem listInsertAt_eq_append : ∀ (l : List String) (n : Nat) (x : String),
    n ≤ l.length → listInsertAt l n x = l.take n ++ x :: l.drop n
  | _, 0, _, _ => by simp [listInsertAt]
  | [], n + 1, x, h => by simp at h
  | a :: l, n + 1, x, h => by
    simp [listInsertAt, listInsertAt_eq_append l n x (by simpa using h)]

theorem natGet_listInsertAt_self : ∀ (l : List String) (n : Nat) (x : String),
    n ≤ l.length → natGet (listInsertAt l n x) n = some x
  | _, 0, _, _ => by simp [listInsertAt, natGet]
  | [], n + 1, x, h => by simp at h
  | _ :: l, n + 1, x, h => by
    simpa [listInsertAt, natGet] using natGet_listInsertAt_self l n x (by simpa using h)

theorem natGet_listInsertAt_succ : ∀ (l : List String) (n : Nat) (x : String) (j : Nat),
    n ≤ j → natGet (listInsertAt l n x) (j + 1) = natGet l j
  | _, 0, _, _, _ => by simp [listInsertAt, natGet]
  | [], n + 1, x, j, h => by
    have h1 : natGet ([] : List String) j = none := natGet_eq_none _ _ (by simp)
    have h2 : natGet [x] (j + 1) = none := natGet_eq_none _ _ (by simp)
    simp [listInsertAt, h1, h2]
  | _ :: l, n + 1, x, j, h => by
    obtain ⟨j, rfl⟩ : ∃ j0, j = j0 + 1 := ⟨j - 1, by omega⟩
    simpa [listInsertAt, natGet] using natGet_listInsertAt_succ l n x j (by omega)

theorem listRemoveAt_length : ∀ (l : List String) (n : Nat),
    n < l.length → (listRemoveAt l n).length + 1 = l.length
  | [], n, h => by simp at h
  | _ :: _, 0, _ => by simp [listRemoveAt]
  | _ :: l, n + 1, h => by
    have := listRemoveAt_length l n (by simpa using h)
    simp [listRemoveAt]
    omega

theorem listRemoveAt_of_ge : ∀ (l : List String) (n : Nat),
    l.length ≤ n → listRemoveAt l n = l
  | [], _, _ => by simp [listRemoveAt]
  | _ :: _, 0, h => by simp at h
  | _ :: l, n + 1, h => by
    simp [listRemoveAt, listRemoveAt_of_ge l n (by simpa using h)]

theorem spliceInsert_of_nonneg (l : List String) (i : Int) (x : String)
    (h0 : 0 ≤ i) (h1 : i ≤ (l.length : Int)) :
    spliceInsert l i x = listInsertAt l i.toNat x := by
  have hle : i.toNat ≤ l.length := by omega
  rw [spliceInsert, spliceStart, if_neg (by omega : ¬ i < 0), min_eq_left hle]

theorem spliceInsert_length (l : List String) (i : Int) (x : String) :
    (spliceInsert l i x).length = l.length + 1 :=
  listInsertAt_length _ _ _

theorem spliceDelete_of_ge (l : List String) (i : Int) (h : (l.length : Int) ≤ i) :
    spliceDelete l i = l := by
  have hge : l.length ≤ i.toNat := by omega
  rw [spliceDelete, spliceStart, if_neg (by omega : ¬ i < 0), min_eq_right hge,
    listRemoveAt_of_ge l l.length le_rfl]

theorem domInsertBefore_eq (l : List String) (i : Int) (xs : List String)
    (h0 : 0 ≤ i) (h1 : i ≤ (l.length : Int)) :
    domInsertBefore l i xs = l.take i.toNat ++ xs ++ l.drop i.toNat := by
  by_cases h : i < (l.length : Int)
  · have hlt : i.toNat < l.length := by omega
    rw [domInsertBefore, jsGet_eq_natGet l i h0, natGet_eq_get l i.toNat hlt]
  · have hii : i.toNat = l.length := by omega
    rw [domInsertBefore, jsGet_eq_natGet l i h0, natGet_eq_none l i.toNat (by omega)]
    simp [hii]

theorem domInsertBefore_of_out (l : List String) (i : Int) (xs : List String)
    (h : i < 0 ∨ (l.length : Int) < i) : domInsertBefore l i xs = l ++ xs := by
  rcases h with h | h
  · rw [domInsertBefore, jsGet_of_neg l i h]
  · rw [domInsertBefore, jsGet_of_ge l i (by omega)]

theorem domInsertBefore_length (l : List String) (i : Int) (xs : List String) :
    (domInsertBefore l i xs).length = l.length + xs.length := by
  rw [domInsertBefore]
  by_cases h : 0 ≤ i ∧ i < (l.length : Int)
  · have hlt : i.toNat < l.length := by omega
    rw [jsGet_eq_natGet l i h.1, natGet_eq_get l i.toNat hlt]
    simp
    omega
  · have : jsGet l i = none := by
      by_cases h0 : 0 ≤ i
      · exact jsGet_of_ge l i (by omega)
      · exact jsGet_of_neg l i (by omega)
    rw [this]
    simp

theorem domInsertBefore_single (l : List String) (i : Int) (x : String)
    (h0 : 0 ≤ i) (h1 : i ≤ (l.length : Int)) :
    domInsertBefore l i [x] = listInsertAt l i.toNat x := by
  rw [domInsertBefore_eq l i [x] h0 h1,
    listInsertAt_eq_append l i.toNat x (by omega)]
  simp

theorem domInsertBefore_nil (l : List String) (i : Int) :
    domInsertBefore l i [] = l := by
  rw [domInsertBefore]
  cases h : jsGet l i with
  | some s => simp
  | none => simp

theorem spliceDelete_of_lt (l : List String) (i : Int)
    (h0 : 0 ≤ i) (h1 : i < (l.length : Int)) :
    (spliceDelete l i).length + 1 = l.length := by
  have hlt : i.toNat < l.length := by omega
  rw [spliceDelete, spliceStart, if_neg (by omega : ¬ i < 0),
    min_eq_left (by omega : i.toNat ≤ l.length)]
  exact listRemoveAt_length l i.toNat hlt

theorem jsGet_isSome (l : List String) (i : Int)
    (h0 : 0 ≤ i) (h1 : i < (l.length : Int)) :
    ∃ s, jsGet l i = some s := by
  have hlt : i.toNat < l.length := by omega
  rw [jsGet_eq_natGet l i h0, natGet_eq_get l i.toNat hlt]
  exact ⟨_, rfl⟩

/-- Inserting `r :: rs` before position `n` is the same as first inserting
`r` at `n` and then inserting `rs` before position `n + 1`. -/
theorem cons_insert_step : ∀ (l : List String) (n : Nat) (r : String) (rs : List String),
    n ≤ l.length →
    l.take n ++ (r :: rs) ++ l.drop n
      = (listInsertAt l n r).take (n + 1) ++ rs ++ (listInsertAt l n r).drop (n + 1)
  | l, 0, r, rs, _ => by simp [listInsertAt]
  | [], n + 1, r, rs, h => by simp at h
  | a :: l, n + 1, r, rs, h => by
    simpa [listInsertAt] using cons_insert_step l n r rs (by simpa using h)

/-! Step lemmas: each operation keeps the `length` counter in sync with the
store, and moves it by exactly its reported success count (out-of-range
deletes excepted). -/

theorem virtual_insertRule_step (st : VirtualTag.State) (i : Int) (r : String)
    (hwf : VirtualTag.Wf st) :
    VirtualTag.Wf (VirtualTag.insertRule st i r).2 ∧
    (VirtualTag.insertRule st i r).2.length
      = st.length + (if (VirtualTag.insertRule st i r).1 then 1 else 0) := by
  rw [VirtualTag.Wf] at hwf
  by_cases h : i ≤ st.length
  · simp [VirtualTag.insertRule, h, VirtualTag.Wf, spliceInsert_length]
    omega
  · simp [VirtualTag.insertRule, h, VirtualTag.Wf]
    omega

theorem virtual_insertRules_step : ∀ (rs : List String) (st : VirtualTag.State) (s : Int),
    VirtualTag.Wf st →
    VirtualTag.Wf (VirtualTag.insertRules st s rs).2 ∧
    (VirtualTag.insertRules st s rs).2.length
      = st.length + ((VirtualTag.insertRules st s rs).1 : Int)
  | [], st, s, hwf => by simp [VirtualTag.insertRules, hwf]
  | r :: rs, st, s, hwf => by
    have h1 := virtual_insertRule_step st s r hwf
    by_cases hp : (VirtualTag.insertRule st s r).1
    · have h2 := virtual_insertRules_step rs (VirtualTag.insertRule st s r).2 (s + 1) h1.1
      simp only [VirtualTag.insertRules, hp, if_true, if_pos]
      refine ⟨h2.1, ?_⟩
      rw [hp] at h1
      simp at h1
      omega
    · have h2 := virtual_insertRules_step rs (VirtualTag.insertRule st s r).2 s h1.1
      simp only [VirtualTag.insertRules, hp, if_false, if_neg]
      refine ⟨h2.1, ?_⟩
      simp [hp] at h1
      push_cast
      omega

theorem virtual_deleteRule_step (st : VirtualTag.State) (i : Int)
    (hwf : VirtualTag.Wf st) (h0 : 0 ≤ i) (h1 : i < st.length) :
    VirtualTag.Wf (VirtualTag.deleteRule st i) ∧
    (VirtualTag.deleteRule st i).length = st.length - 1 := by
  rw [VirtualTag.Wf] at hwf
  have hd := spliceDelete_of_lt st.rules i h0 (by omega)
  simp [VirtualTag.deleteRule, VirtualTag.Wf]
  omega

theorem virtual_runOps_invariant : ∀ (ops : List Op) (st : VirtualTag.State),
    VirtualTag.Wf st → VirtualTag.validOps st ops = true →
    VirtualTag.Wf (VirtualTag.runOps st ops).1 ∧
    (VirtualTag.runOps st ops).1.length
      = st.length + ((VirtualTag.runOps st ops).2 : Int) - (countDeletes ops : Int)
  | [], st, hwf, _ => by simp [VirtualTag.runOps, countDeletes, hwf]
  | Op.insertOne i r :: ops, st, hwf, hv => by
    have h1 := virtual_insertRule_step st i r hwf
    have h2 := virtual_runOps_invariant ops (VirtualTag.insertRule st i r).2 h1.1
      (by simpa [VirtualTag.validOps] using hv)
    simp only [VirtualTag.runOps, countDeletes]
    refine ⟨h2.1, ?_⟩
    by_cases hp : (VirtualTag.insertRule st i r).1 <;>
      simp [hp] at h1 h2 ⊢ <;> omega
  | Op.insertMany i rs :: ops, st, hwf, hv => by
    have h1 := virtual_insertRules_step rs st i hwf
    have h2 := virtual_runOps_invariant ops (VirtualTag.insertRules st i rs).2 h1.1
      (by simpa [VirtualTag.validOps] using hv)
    simp only [VirtualTag.runOps, countDeletes]
    refine ⟨h2.1, ?_⟩
    push_cast at h1 h2 ⊢
    omega
  | Op.deleteOne i :: ops, st, hwf, hv => by
    have hb : (0 ≤ i ∧ i < st.length) ∧ VirtualTag.validOps (VirtualTag.deleteRule st i) ops = true := by
      simpa [VirtualTag.validOps, Bool.and_eq_true, and_assoc] using hv
    have h1 := virtual_deleteRule_step st i hwf hb.1.1 hb.1.2
    have h2 := virtual_runOps_invariant ops (VirtualTag.deleteRule st i) h1.1 hb.2
    simp only [VirtualTag.runOps, countDeletes]
    refine ⟨h2.1, ?_⟩
    push_cast at h1 h2 ⊢
    omega

theorem text_insertRule_step (st : TextTag.State) (i : Int) (r : String)
    (hwf : TextTag.Wf st) :
    TextTag.Wf (TextTag.insertRule st i r).2 ∧
    (TextTag.insertRule st i r).2.length
      = st.length + (if (TextTag.insertRule st i r).1 then 1 else 0) := by
  rw [TextTag.Wf] at hwf
  by_cases h : i ≤ st.length ∧ 0 ≤ i
  · simp [TextTag.insertRule, h, TextTag.Wf, domInsertBefore_length]
    omega
  · simp [TextTag.insertRule, h, TextTag.Wf]
    omega

theorem text_insertRules_step (st : TextTag.State) (s : Int) (rs : List String)
    (hwf : TextTag.Wf st) :
    TextTag.Wf (TextTag.insertRules st s rs).2 ∧
    (TextTag.insertRules st s rs).2.length
      = st.length + ((TextTag.insertRules st s rs).1 : Int) := by
  rw [TextTag.Wf] at hwf
  simp [TextTag.insertRules, TextTag.Wf, domInsertBefore_length]
  omega

theorem text_deleteRule_step (st : TextTag.State) (i : Int)
    (hwf : TextTag.Wf st) (h0 : 0 ≤ i) (h1 : i < st.length) :
    ∃ st2, TextTag.deleteRule st i = some st2 ∧ TextTag.Wf st2 ∧
      st2.length = st.length - 1 := by
  rw [TextTag.Wf] at hwf
  obtain ⟨s, hs⟩ := jsGet_isSome st.nodes i h0 (by omega)
  have hrl := listRemoveAt_length st.nodes i.toNat (by omega)
  refine ⟨⟨listRemoveAt st.nodes i.toNat, st.length - 1⟩, ?_, ?_, rfl⟩
  · simp [TextTag.deleteRule, hs]
  · rw [TextTag.Wf]
    simp
    omega

theorem text_runOps_invariant : ∀ (ops : List Op) (st : TextTag.State),
    TextTag.Wf st → TextTag.validOps st ops = true →
    ∃ p, TextTag.runOps st ops = some p ∧ TextTag.Wf p.1 ∧
      p.1.length = st.length + (p.2 : Int) - (countDeletes ops : Int)
  | [], st, hwf, _ => ⟨(st, 0), by simp [TextTag.runOps], hwf, by simp [countDeletes]⟩
  | Op.insertOne i r :: ops, st, hwf, hv => by
    have h1 := text_insertRule_step st i r hwf
    obtain ⟨p, hp, hwfp, hlen⟩ := text_runOps_invariant ops (TextTag.insertRule st i r).2 h1.1
      (by simpa [TextTag.validOps] using hv)
    refine ⟨(p.1, (if (TextTag.insertRule st i r).1 then 1 else 0) + p.2), ?_, hwfp, ?_⟩
    · simp [TextTag.runOps, hp]
    · simp only [countDeletes]
      by_cases hb : (TextTag.insertRule st i r).1 <;>
        simp [hb] at h1 hlen ⊢ <;> omega
  | Op.insertMany i rs :: ops, st, hwf, hv => by
    have h1 := text_insertRules_step st i rs hwf
    obtain ⟨p, hp, hwfp, hlen⟩ := text_runOps_invariant ops (TextTag.insertRules st i rs).2 h1.1
      (by simpa [TextTag.validOps] using hv)
    refine ⟨(p.1, (TextTag.insertRules st i rs).1 + p.2), ?_, hwfp, ?_⟩
    · simp [TextTag.runOps, hp]
    · simp only [countDeletes]
      push_cast at h1 hlen ⊢
      omega
  | Op.deleteOne i :: ops, st, hwf, hv => by
    simp only [TextTag.validOps, Bool.and_eq_true, decide_eq_true_eq] at hv
    obtain ⟨st2, hst2, hwf2, hlen2⟩ := text_deleteRule_step st i hwf hv.1.1 hv.1.2
    have hv2 : TextTag.validOps st2 ops = true := by
      have hm := hv.2
      rw [hst2] at hm
      simpa using hm
    obtain ⟨p, hp, hwfp, hlen⟩ := text_runOps_invariant ops st2 hwf2 hv2
    refine ⟨p, ?_, hwfp, ?_⟩
    · simp [TextTag.runOps, hst2, hp]
    · simp only [countDeletes]
      push_cast at hlen ⊢
      omega

theorem cssom_insertRule_step (accept : String → Bool) (st : CSSOMTag.State)
    (i : Int) (r : String) (hwf : CSSOMTag.Wf st) :
    CSSOMTag.Wf (CSSOMTag.insertRule accept st i r).2 ∧
    (CSSOMTag.insertRule accept st i r).2.length
      = st.length + (if (CSSOMTag.insertRule accept st i r).1 then 1 else 0) := by
  rw [CSSOMTag.Wf] at hwf
  by_cases h : 0 ≤ i ∧ i ≤ (st.cssRules.length : Int) ∧ accept r = true
  · simp [CSSOMTag.insertRule, CSSOMTag.sheetInsertRule, h, CSSOMTag.Wf, listInsertAt_length]
    omega
  · simp [CSSOMTag.insertRule, CSSOMTag.sheetInsertRule, h, CSSOMTag.Wf]
    omega

theorem cssom_insertRules_step : ∀ (rs : List String) (accept : String → Bool)
    (st : CSSOMTag.State) (s : Int), CSSOMTag.Wf st →
    CSSOMTag.Wf (CSSOMTag.insertRules accept st s rs).2 ∧
    (CSSOMTag.insertRules accept st s rs).2.length
      = st.length + ((CSSOMTag.insertRules accept st s rs).1 : Int)
  | [], accept, st, s, hwf => by simp [CSSOMTag.insertRules, hwf]
  | r :: rs, accept, st, s, hwf => by
    have h1 := cssom_insertRule_step accept st s r hwf
    by_cases hp : (CSSOMTag.insertRule accept st s r).1
    · have h2 := cssom_insertRules_step rs accept (CSSOMTag.insertRule accept st s r).2 (s + 1) h1.1
      simp only [CSSOMTag.insertRules, hp, if_true, if_pos]
      refine ⟨h2.1, ?_⟩
      rw [hp] at h1
      simp at h1
      push_cast at h2 ⊢
      omega
    · have h2 := cssom_insertRules_step rs accept (CSSOMTag.insertRule accept st s r).2 s h1.1
      simp only [CSSOMTag.insertRules, hp, if_false, if_neg]
      refine ⟨h2.1, ?_⟩
      simp [hp] at h1
      push_cast at h2 ⊢
      omega

theorem cssom_deleteRule_step (st : CSSOMTag.State) (i : Int)
    (hwf : CSSOMTag.Wf st) (h0 : 0 ≤ i) (h1 : i < st.length) :
    ∃ st2, CSSOMTag.deleteRule st i = some st2 ∧ CSSOMTag.Wf st2 ∧
      st2.length = st.length - 1 := by
  rw [CSSOMTag.Wf] at hwf
  have hc : 0 ≤ i ∧ i < (st.cssRules.length : Int) := ⟨h0, by omega⟩
  have hrl := listRemoveAt_length st.cssRules i.toNat (by omega)
  refine ⟨⟨listRemoveAt st.cssRules i.toNat, st.length - 1⟩, ?_, ?_, rfl⟩
  · simp [CSSOMTag.deleteRule, CSSOMTag.sheetDeleteRule, hc]
  · rw [CSSOMTag.Wf]
    simp
    omega

theorem cssom_runOps_invariant : ∀ (ops : List Op) (accept : String → Bool)
    (st : CSSOMTag.State),
    CSSOMTag.Wf st → CSSOMTag.validOps accept st ops = true →
    ∃ p, CSSOMTag.runOps accept st ops = some p ∧ CSSOMTag.Wf p.1 ∧
      p.1.length = st.length + (p.2 : Int) - (countDeletes ops : Int)
  | [], accept, st, hwf, _ =>
    ⟨(st, 0), by simp [CSSOMTag.runOps], hwf, by simp [countDeletes]⟩
  | Op.insertOne i r :: ops, accept, st, hwf, hv => by
    have h1 := cssom_insertRule_step accept st i r hwf
    obtain ⟨p, hp, hwfp, hlen⟩ := cssom_runOps_invariant ops accept
      (CSSOMTag.insertRule accept st i r).2 h1.1 (by simpa [CSSOMTag.validOps] using hv)
    refine ⟨(p.1, (if (CSSOMTag.insertRule accept st i r).1 then 1 else 0) + p.2), ?_, hwfp, ?_⟩
    · simp [CSSOMTag.runOps, hp]
    · simp only [countDeletes]
      by_cases hb : (CSSOMTag.insertRule accept st i r).1 <;>
        simp [hb] at h1 hlen ⊢ <;> omega
  | Op.insertMany i rs :: ops, accept, st, hwf, hv => by
    have h1 := cssom_insertRules_step rs accept st i hwf
    obtain ⟨p, hp, hwfp, hlen⟩ := cssom_runOps_invariant ops accept
      (CSSOMTag.insertRules accept st i rs).2 h1.1 (by simpa [CSSOMTag.validOps] using hv)
    refine ⟨(p.1, (CSSOMTag.insertRules accept st i rs).1 + p.2), ?_, hwfp, ?_⟩
    · simp [CSSOMTag.runOps, hp]
    · simp only [countDeletes]
      push_cast at h1 hlen ⊢
      omega
  | Op.deleteOne i :: ops, accept, st, hwf, hv => by
    simp only [CSSOMTag.validOps, Bool.and_eq_true, decide_eq_true_eq] at hv
    obtain ⟨st2, hst2, hwf2, hlen2⟩ := cssom_deleteRule_step st i hwf hv.1.1 hv.1.2
    have hv2 : CSSOMTag.validOps accept st2 ops = true := by
      have hm := hv.2
      rw [hst2] at hm
      simpa using hm
    obtain ⟨p, hp, hwfp, hlen⟩ := cssom_runOps_invariant ops accept st2 hwf2 hv2
    refine ⟨p, ?_, hwfp, ?_⟩
    · simp [CSSOMTag.runOps, hst2, hp]
    · simp only [countDeletes]
      push_cast at hlen ⊢
      omega

theorem dom_insert_cons (l : List String) (s : Int) (r : String) (rs : List String)
    (h0 : 0 ≤ s) (h1 : s ≤ (l.length : Int)) :
    domInsertBefore l s (r :: rs)
      = domInsertBefore (domInsertBefore l s [r]) (s + 1) rs := by
  rw [domInsertBefore_single l s r h0 h1, domInsertBefore_eq l s (r :: rs) h0 h1,
    domInsertBefore_eq (listInsertAt l s.toNat r) (s + 1) rs (by omega)
      (by rw [listInsertAt_length]; push_cast; omega)]
  have hsucc : (s + 1).toNat = s.toNat + 1 := by omega
  rw [hsucc]
  exact cons_insert_step l s.toNat r rs (by omega)

theorem virtual_insertRules_seq : ∀ (rs : List String) (st : VirtualTag.State) (s : Int),
    VirtualTag.Wf st → 0 ≤ s → s ≤ st.length →
    VirtualTag.insertRules st s rs = (rs.length, seqInsertVirtual st s rs)
  | [], st, s, _, _, _ => by simp [VirtualTag.insertRules, seqInsertVirtual]
  | r :: rs, st, s, hwf, h0, h1 => by
    have hp : (VirtualTag.insertRule st s r).1 = true := by
      simp [VirtualTag.insertRule, h1]
    have hlen2 : (VirtualTag.insertRule st s r).2.length = st.length + 1 := by
      simp [VirtualTag.insertRule, h1]
    have ih := virtual_insertRules_seq rs (VirtualTag.insertRule st s r).2 (s + 1)
      (virtual_insertRule_step st s r hwf).1 (by omega) (by rw [hlen2]; omega)
    simp only [VirtualTag.insertRules, seqInsertVirtual, hp, if_true]
    rw [ih]
    simp

theorem text_insertRules_seq : ∀ (rs : List String) (st : TextTag.State) (s : Int),
    TextTag.Wf st → 0 ≤ s → s ≤ st.length →
    TextTag.insertRules st s rs = (rs.length, seqInsertText st s rs)
  | [], st, s, _, _, _ => by
    simp [TextTag.insertRules, seqInsertText, domInsertBefore_nil]
  | r :: rs, st, s, hwf, h0, h1 => by
    have hwfn : st.length = (st.nodes.length : Int) := hwf
    have hp2 : (TextTag.insertRule st s r).2
        = ⟨domInsertBefore st.nodes s [r], st.length + 1⟩ := by
      simp [TextTag.insertRule, h0, h1]
    have hwf2 : TextTag.Wf (TextTag.insertRule st s r).2 :=
      (text_insertRule_step st s r hwf).1
    have hlen2 : (TextTag.insertRule st s r).2.length = st.length + 1 := by rw [hp2]
    have ih := text_insertRules_seq rs (TextTag.insertRule st s r).2 (s + 1)
      hwf2 (by omega) (by rw [hlen2]; omega)
    have hseq : seqInsertText st s (r :: rs)
        = (TextTag.insertRules (TextTag.insertRule st s r).2 (s + 1) rs).2 := by
      rw [ih]
      simp [seqInsertText]
    rw [hseq, hp2]
    simp only [TextTag.insertRules]
    rw [dom_insert_cons st.nodes s r rs h0 (by omega)]
    simp
    omega

theorem cssom_insertRules_filter : ∀ (rs : List String) (accept : String → Bool)
    (st : CSSOMTag.State) (s : Int),
    CSSOMTag.Wf st → 0 ≤ s → s ≤ st.length →
    CSSOMTag.insertRules accept st s rs
      = ((rs.filter accept).length,
         ⟨st.cssRules.take s.toNat ++ rs.filter accept ++ st.cssRules.drop s.toNat,
          st.length + ((rs.filter accept).length : Int)⟩)
  | [], accept, st, s, hwf, h0, h1 => by
    simp [CSSOMTag.insertRules, List.filter]
  | r :: rs, accept, st, s, hwf, h0, h1 => by
    have hwfn : st.length = (st.cssRules.length : Int) := hwf
    by_cases ha : accept r = true
    · have hc : 0 ≤ s ∧ s ≤ (st.cssRules.length : Int) ∧ accept r = true :=
        ⟨h0, by omega, ha⟩
      have hp : CSSOMTag.insertRule accept st s r
          = (true, ⟨listInsertAt st.cssRules s.toNat r, st.length + 1⟩) := by
        simp [CSSOMTag.insertRule, CSSOMTag.sheetInsertRule, hc]
      have hwf2 : CSSOMTag.Wf (⟨listInsertAt st.cssRules s.toNat r, st.length + 1⟩ :
          CSSOMTag.State) := by
        rw [CSSOMTag.Wf]
        simp [listInsertAt_length]
        omega
      have ih := cssom_insertRules_filter rs accept
        ⟨listInsertAt st.cssRules s.toNat r, st.length + 1⟩ (s + 1) hwf2 (by omega)
        (by simp; omega)
      simp only [CSSOMTag.insertRules, hp, if_true]
      rw [ih]
      have hsucc : (s + 1).toNat = s.toNat + 1 := by omega
      simp only [hsucc]
      rw [← cons_insert_step st.cssRules s.toNat r (rs.filter accept) (by omega)]
      simp [List.filter, ha]
      omega
    · have hc : ¬(0 ≤ s ∧ s ≤ (st.cssRules.length : Int) ∧ accept r = true) := by
        simp [ha]
      have hp : CSSOMTag.insertRule accept st s r = (false, st) := by
        simp [CSSOMTag.insertRule, CSSOMTag.sheetInsertRule, hc]
      have ih := cssom_insertRules_filter rs accept st s hwf h0 h1
      simp only [CSSOMTag.insertRules, hp, if_false]
      rw [ih]
      simp [List.filter, ha]

/-! Claim theorems. -/

/-- C1 counterexample: on the list-backed variant, `insertRule(-1, "x")` on a
fresh tag — an index outside `[0, length] = [0, 0]` — returns `true` and
mutates the tag, contradicting the claim that every index outside the range,
including every negative index, yields `false` with no mutation. -/
theorem c1_counterexample :
    (VirtualTag.insertRule VirtualTag.fresh (-1) "x").1 = true ∧
    (VirtualTag.insertRule VirtualTag.fresh (-1) "x").2 ≠ VirtualTag.fresh := by
  decide

/-- C1 (amended): insertRule never raises (it is a total function into
`Bool × State` for every backend).  For the engine-backed variant it returns
`false` with no mutation exactly when the index is outside `[0, length]` or
the engine rejects the rule, and otherwise returns `true` with `length`
increased by one; for the node-backed variant likewise with out-of-range
index as the only failure; the list-backed variant however rejects only
indices above `length` — every index `≤ length`, including every negative
index, is accepted (splice clamps the position), returning `true` with
`length` and the store both growing by one. -/
theorem c1_insertRule_contract (accept : String → Bool) (cst : CSSOMTag.State)
    (tst : TextTag.State) (vst : VirtualTag.State) (i : Int) (r : String) :
    (CSSOMTag.Wf cst → (i < 0 ∨ cst.length < i ∨ accept r = false) →
      CSSOMTag.insertRule accept cst i r = (false, cst)) ∧
    (CSSOMTag.Wf cst → 0 ≤ i → i ≤ cst.length → accept r = true →
      (CSSOMTag.insertRule accept cst i r).1 = true ∧
      (CSSOMTag.insertRule accept cst i r).2.length = cst.length + 1) ∧
    ((i < 0 ∨ tst.length < i) → TextTag.insertRule tst i r = (false, tst)) ∧
    (0 ≤ i → i ≤ tst.length →
      (TextTag.insertRule tst i r).1 = true ∧
      (TextTag.insertRule tst i r).2.length = tst.length + 1) ∧
    (vst.length < i → VirtualTag.insertRule vst i r = (false, vst)) ∧
    (i ≤ vst.length →
      (VirtualTag.insertRule vst i r).1 = true ∧
      (VirtualTag.insertRule vst i r).2.length = vst.length + 1 ∧
      (VirtualTag.insertRule vst i r).2.rules.length = vst.rules.length + 1) := by
  refine ⟨?_, ?_, ?_, ?_, ?_, ?_⟩
  · intro hwf h
    rw [CSSOMTag.Wf] at hwf
    have hc : ¬(0 ≤ i ∧ i ≤ (cst.cssRules.length : Int) ∧ accept r = true) := by
      intro hx
      rcases h with h | h | h
      · omega
      · omega
      · rw [h] at hx
        exact Bool.false_ne_true hx.2.2
    simp [CSSOMTag.insertRule, CSSOMTag.sheetInsertRule, hc]
  · intro hwf h0 h1 ha
    rw [CSSOMTag.Wf] at hwf
    have hc : 0 ≤ i ∧ i ≤ (cst.cssRules.length : Int) ∧ accept r = true :=
      ⟨h0, by omega, ha⟩
    simp [CSSOMTag.insertRule, CSSOMTag.sheetInsertRule, hc]
  · intro h
    have hc : ¬(i ≤ tst.length ∧ 0 ≤ i) := by
      intro hx
      rcases h with h | h <;> omega
    simp [TextTag.insertRule, hc]
  · intro h0 h1
    simp [TextTag.insertRule, h0, h1, domInsertBefore_length]
  · intro h
    simp [VirtualTag.insertRule]
    omega
  · intro h
    simp [VirtualTag.insertRule, h, spliceInsert_length]

/-- C1 witness: concrete applications of the contract — an engine rejection,
a successful in-range node-backed insert, and an out-of-range (too large)
list-backed insert. -/
theorem c1_insertRule_contract_witness :
    CSSOMTag.insertRule (fun _ => false) CSSOMTag.fresh 0 "x" = (false, CSSOMTag.fresh) ∧
    (TextTag.insertRule TextTag.fresh 0 "x").1 = true ∧
    VirtualTag.insertRule VirtualTag.fresh 2 "x" = (false, VirtualTag.fresh) :=
  ⟨(c1_insertRule_contract (fun _ => false) CSSOMTag.fresh TextTag.fresh
      VirtualTag.fresh 0 "x").1 rfl (Or.inr (Or.inr rfl)),
   ((c1_insertRule_contract (fun _ => false) CSSOMTag.fresh TextTag.fresh
      VirtualTag.fresh 0 "x").2.2.2.1 (by decide) (by decide)).1,
   (c1_insertRule_contract (fun _ => false) CSSOMTag.fresh TextTag.fresh
      VirtualTag.fresh 2 "x").2.2.2.2.1 (by decide)⟩

/-- C2 counterexample: on the list-backed variant, `insertRules(1, ["a"])` on
a fresh tag returns `0`, not `rs.length = 1` — the claim fails for a start
index above `length`. -/
theorem c2_counterexample :
    (VirtualTag.insertRules VirtualTag.fresh 1 ["a"]).1
      ≠ (["a"] : List String).length := by
  decide

/-- C2 (amended): for the node-backed and list-backed variants, whenever the
start index `s` lies in `[0, length]`, `insertRules(s, rs)` returns
`rs.length` and leaves the tag in exactly the state produced by `rs.length`
sequential `insertRule` calls at `s, s+1, ...` (outside that range the two
backends diverge from the claimed behaviour). -/
theorem c2_insertRules_refines_seq (tst : TextTag.State) (vst : VirtualTag.State)
    (s : Int) (rs : List String) :
    (TextTag.Wf tst → 0 ≤ s → s ≤ tst.length →
      TextTag.insertRules tst s rs = (rs.length, seqInsertText tst s rs)) ∧
    (VirtualTag.Wf vst → 0 ≤ s → s ≤ vst.length →
      VirtualTag.insertRules vst s rs = (rs.length, seqInsertVirtual vst s rs)) :=
  ⟨fun hwf h0 h1 => text_insertRules_seq rs tst s hwf h0 h1,
   fun hwf h0 h1 => virtual_insertRules_seq rs vst s hwf h0 h1⟩

/-- C2 witness: the batch insert on both variants, from a fresh tag at start
index 0, agrees with the sequential inserts. -/
theorem c2_insertRules_refines_seq_witness :
    TextTag.insertRules TextTag.fresh 0 ["a", "b"]
      = (["a", "b"].length, seqInsertText TextTag.fresh 0 ["a", "b"]) ∧
    VirtualTag.insertRules VirtualTag.fresh 0 ["a", "b"]
      = (["a", "b"].length, seqInsertVirtual VirtualTag.fresh 0 ["a", "b"]) :=
  ⟨(c2_insertRules_refines_seq TextTag.fresh VirtualTag.fresh 0 ["a", "b"]).1
      rfl (by decide) (by decide),
   (c2_insertRules_refines_seq TextTag.fresh VirtualTag.fresh 0 ["a", "b"]).2
      rfl (by decide) (by decide)⟩

/-- C3 counterexample: on the list-backed variant, `insertRule(-1, "x")` on a
fresh tag returns `true`, but `getRule(-1)` afterwards is the JavaScript
value `undefined` (`none`), not the inserted rule. -/
theorem c3_counterexample :
    (VirtualTag.insertRule VirtualTag.fresh (-1) "x").1 = true ∧
    VirtualTag.getRule (VirtualTag.insertRule VirtualTag.fresh (-1) "x").2 (-1)
      ≠ some "x" := by
  decide

/-- C3 (amended): for every backend, every consistent state, every
NON-NEGATIVE index `i` and rule `r`: if `insertRule(i, r)` returns `true`,
then `getRule(i)` reads back `r`, and every index `j > i` valid before the
call reads at `j + 1` what was at `j` before.  (For a negative `i` the
list-backed variant violates the read-back clause.) -/
theorem c3_insert_then_read (accept : String → Bool) (cst : CSSOMTag.State)
    (tst : TextTag.State) (vst : VirtualTag.State) (i : Int) (r : String)
    (hi : 0 ≤ i) :
    (VirtualTag.Wf vst → (VirtualTag.insertRule vst i r).1 = true →
      VirtualTag.getRule (VirtualTag.insertRule vst i r).2 i = some r ∧
      ∀ j : Int, i < j → j < vst.length →
        VirtualTag.getRule (VirtualTag.insertRule vst i r).2 (j + 1)
          = VirtualTag.getRule vst j) ∧
    (TextTag.Wf tst → (TextTag.insertRule tst i r).1 = true →
      TextTag.getRule (TextTag.insertRule tst i r).2 i = some r ∧
      ∀ j : Int, i < j → j < tst.length →
        TextTag.getRule (TextTag.insertRule tst i r).2 (j + 1)
          = TextTag.getRule tst j) ∧
    (CSSOMTag.Wf cst → (CSSOMTag.insertRule accept cst i r).1 = true →
      CSSOMTag.getRule (CSSOMTag.insertRule accept cst i r).2 i = r ∧
      ∀ j : Int, i < j → j < cst.length →
        CSSOMTag.getRule (CSSOMTag.insertRule accept cst i r).2 (j + 1)
          = CSSOMTag.getRule cst j) := by
  refine ⟨?_, ?_, ?_⟩
  · intro hwf hs
    rw [VirtualTag.Wf] at hwf
    have h1 : i ≤ vst.length := by
      by_contra h
      simp [VirtualTag.insertRule, h] at hs
    have hst2 : (VirtualTag.insertRule vst i r).2
        = ⟨listInsertAt vst.rules i.toNat r, vst.length + 1⟩ := by
      simp [VirtualTag.insertRule, h1, spliceInsert_of_nonneg vst.rules i r hi (by omega)]
    constructor
    · rw [hst2, VirtualTag.getRule]
      simp only [if_pos (by omega : i < vst.length + 1)]
      rw [jsGet_eq_natGet _ i hi]
      exact natGet_listInsertAt_self _ _ _ (by omega)
    · intro j hij hjlen
      rw [hst2, VirtualTag.getRule, VirtualTag.getRule]
      simp only [if_pos (by omega : j + 1 < vst.length + 1),
        if_pos (by omega : j < vst.length)]
      rw [jsGet_eq_natGet _ _ (by omega), jsGet_eq_natGet _ _ (by omega),
        (by omega : (j + 1).toNat = j.toNat + 1)]
      exact natGet_listInsertAt_succ _ _ _ _ (by omega)
  · intro hwf hs
    rw [TextTag.Wf] at hwf
    have h1 : i ≤ tst.length := by
      by_contra h
      simp [TextTag.insertRule, h] at hs
    have hst2 : (TextTag.insertRule tst i r).2
        = ⟨listInsertAt tst.nodes i.toNat r, tst.length + 1⟩ := by
      simp [TextTag.insertRule, h1, hi,
        domInsertBefore_single tst.nodes i r hi (by omega)]
    constructor
    · rw [hst2, TextTag.getRule]
      simp only [if_pos (by omega : i < tst.length + 1)]
      rw [jsGet_eq_natGet _ i hi]
      exact natGet_listInsertAt_self _ _ _ (by omega)
    · intro j hij hjlen
      rw [hst2, TextTag.getRule, TextTag.getRule]
      simp only [if_pos (by omega : j + 1 < tst.length + 1),
        if_pos (by omega : j < tst.length)]
      rw [jsGet_eq_natGet _ _ (by omega), jsGet_eq_natGet _ _ (by omega),
        (by omega : (j + 1).toNat = j.toNat + 1)]
      exact natGet_listInsertAt_succ _ _ _ _ (by omega)
  · intro hwf hs
    rw [CSSOMTag.Wf] at hwf
    by_cases hc : 0 ≤ i ∧ i ≤ (cst.cssRules.length : Int) ∧ accept r = true
    case neg =>
      simp [CSSOMTag.insertRule, CSSOMTag.sheetInsertRule, hc] at hs
    have hst2 : (CSSOMTag.insertRule accept cst i r).2
        = ⟨listInsertAt cst.cssRules i.toNat r, cst.length + 1⟩ := by
      simp [CSSOMTag.insertRule, CSSOMTag.sheetInsertRule, hc]
    constructor
    · rw [hst2, CSSOMTag.getRule]
      simp only
      rw [jsGet_eq_natGet _ i hi, natGet_listInsertAt_self _ _ _ (by omega)]
      rfl
    · intro j hij hjlen
      rw [hst2, CSSOMTag.getRule, CSSOMTag.getRule]
      simp only
      rw [jsGet_eq_natGet _ _ (by omega : (0:Int) ≤ j + 1),
        jsGet_eq_natGet _ _ (by omega : (0:Int) ≤ j),
        (by omega : (j + 1).toNat = j.toNat + 1),
        natGet_listInsertAt_succ _ _ _ _ (by omega)]

/-- C3 witness: inserting `"x"` at index 1 of a two-rule tag reads back
`"x"` at index 1, on each backend. -/
theorem c3_insert_then_read_witness :
    VirtualTag.getRule (VirtualTag.insertRule ⟨["a", "b"], 2⟩ 1 "x").2 1 = some "x" ∧
    TextTag.getRule (TextTag.insertRule ⟨["a", "b"], 2⟩ 1 "x").2 1 = some "x" ∧
    CSSOMTag.getRule (CSSOMTag.insertRule (fun _ => true) ⟨["a", "b"], 2⟩ 1 "x").2 1 = "x" :=
  ⟨((c3_insert_then_read (fun _ => true) ⟨["a", "b"], 2⟩ ⟨["a", "b"], 2⟩
      ⟨["a", "b"], 2⟩ 1 "x" (by decide)).1 rfl (by decide)).1,
   ((c3_insert_then_read (fun _ => true) ⟨["a", "b"], 2⟩ ⟨["a", "b"], 2⟩
      ⟨["a", "b"], 2⟩ 1 "x" (by decide)).2.1 rfl (by decide)).1,
   ((c3_insert_then_read (fun _ => true) ⟨["a", "b"], 2⟩ ⟨["a", "b"], 2⟩
      ⟨["a", "b"], 2⟩ 1 "x" (by decide)).2.2 rfl (by decide)).1⟩

/-- C4 counterexample: on a fresh list-backed tag, `getRule(-1)` — a
not-currently-populated negative index — evaluates to the JavaScript value
`undefined` (`none`), not the empty string the claim promises. -/
theorem c4_counterexample :
    VirtualTag.getRule VirtualTag.fresh (-1) ≠ some "" := by
  decide

/-- C4 (amended): for every backend, `getRule(index)` returns the empty
string whenever `index ≥ length`.  (Negative indices are NOT tolerated as
claimed: the list-backed variant yields `undefined` and the node-backed
variant throws; only the engine-backed variant returns `""` for them.) -/
theorem c4_getRule_tolerant (cst : CSSOMTag.State) (tst : TextTag.State)
    (vst : VirtualTag.State) (i : Int) :
    (CSSOMTag.Wf cst → cst.length ≤ i → CSSOMTag.getRule cst i = "") ∧
    (tst.length ≤ i → TextTag.getRule tst i = some "") ∧
    (vst.length ≤ i → VirtualTag.getRule vst i = some "") := by
  refine ⟨?_, ?_, ?_⟩
  · intro hwf h
    rw [CSSOMTag.Wf] at hwf
    rw [CSSOMTag.getRule, jsGet_of_ge _ _ (by omega)]
    rfl
  · intro h
    rw [TextTag.getRule, if_neg (by omega)]
  · intro h
    rw [VirtualTag.getRule, if_neg (by omega)]

/-- C4 witness: reading index 3 of fresh (empty) tags yields the empty
string on every backend. -/
theorem c4_getRule_tolerant_witness :
    CSSOMTag.getRule CSSOMTag.fresh 3 = "" ∧
    TextTag.getRule TextTag.fresh 3 = some "" ∧
    VirtualTag.getRule VirtualTag.fresh 3 = some "" :=
  ⟨(c4_getRule_tolerant CSSOMTag.fresh TextTag.fresh VirtualTag.fresh 3).1
      rfl (by decide),
   (c4_getRule_tolerant CSSOMTag.fresh TextTag.fresh VirtualTag.fresh 3).2.1 (by decide),
   (c4_getRule_tolerant CSSOMTag.fresh TextTag.fresh VirtualTag.fresh 3).2.2 (by decide)⟩

/-- C5: for every backend and every trace of contract operations from a
fresh tag whose deletes respect `0 ≤ index < length` at their point of
execution, the final `length` equals (successful single-rule inserts,
batch counts included) minus (deletes performed), and the counter matches
the physical store size (`Wf`); since this holds for every such trace, it
holds at every intermediate point of a run (every prefix of a valid trace
is a valid trace). -/
theorem c5_length_accounting (ops : List Op) (accept : String → Bool) :
    (VirtualTag.validOps VirtualTag.fresh ops = true →
      VirtualTag.Wf (VirtualTag.runOps VirtualTag.fresh ops).1 ∧
      (VirtualTag.runOps VirtualTag.fresh ops).1.length
        = ((VirtualTag.runOps VirtualTag.fresh ops).2 : Int) - (countDeletes ops : Int)) ∧
    (TextTag.validOps TextTag.fresh ops = true →
      ∃ p, TextTag.runOps TextTag.fresh ops = some p ∧ TextTag.Wf p.1 ∧
        p.1.length = (p.2 : Int) - (countDeletes ops : Int)) ∧
    (CSSOMTag.validOps accept CSSOMTag.fresh ops = true →
      ∃ p, CSSOMTag.runOps accept CSSOMTag.fresh ops = some p ∧ CSSOMTag.Wf p.1 ∧
        p.1.length = (p.2 : Int) - (countDeletes ops : Int)) := by
  refine ⟨fun hv => ?_, fun hv => ?_, fun hv => ?_⟩
  · have h := virtual_runOps_invariant ops VirtualTag.fresh rfl hv
    refine ⟨h.1, ?_⟩
    have h2 := h.2
    simpa [VirtualTag.fresh] using h2
  · obtain ⟨p, hp, h1, h2⟩ := text_runOps_invariant ops TextTag.fresh rfl hv
    exact ⟨p, hp, h1, by simpa [TextTag.fresh] using h2⟩
  · obtain ⟨p, hp, h1, h2⟩ := cssom_runOps_invariant ops accept CSSOMTag.fresh rfl hv
    exact ⟨p, hp, h1, by simpa [CSSOMTag.fresh] using h2⟩

/-- C5 witness: a concrete valid trace — one insert, a two-rule batch, one
delete — leaves each backend with `length = 3 - 1 = 2` and a consistent
store. -/
theorem c5_length_accounting_witness :
    (VirtualTag.Wf (VirtualTag.runOps VirtualTag.fresh
        [Op.insertOne 0 "a", Op.insertMany 1 ["b", "c"], Op.deleteOne 0]).1 ∧
      (VirtualTag.runOps VirtualTag.fresh
        [Op.insertOne 0 "a", Op.insertMany 1 ["b", "c"], Op.deleteOne 0]).1.length
        = ((VirtualTag.runOps VirtualTag.fresh
        [Op.insertOne 0 "a", Op.insertMany 1 ["b", "c"], Op.deleteOne 0]).2 : Int)
          - (countDeletes [Op.insertOne 0 "a", Op.insertMany 1 ["b", "c"],
              Op.deleteOne 0] : Int)) ∧
    (∃ p, TextTag.runOps TextTag.fresh
        [Op.insertOne 0 "a", Op.insertMany 1 ["b", "c"], Op.deleteOne 0] = some p ∧
      TextTag.Wf p.1 ∧
      p.1.length = (p.2 : Int) - (countDeletes [Op.insertOne 0 "a",
        Op.insertMany 1 ["b", "c"], Op.deleteOne 0] : Int)) ∧
    (∃ p, CSSOMTag.runOps (fun _ => true) CSSOMTag.fresh
        [Op.insertOne 0 "a", Op.insertMany 1 ["b", "c"], Op.deleteOne 0] = some p ∧
      CSSOMTag.Wf p.1 ∧
      p.1.length = (p.2 : Int) - (countDeletes [Op.insertOne 0 "a",
        Op.insertMany 1 ["b", "c"], Op.deleteOne 0] : Int)) :=
  ⟨(c5_length_accounting [Op.insertOne 0 "a", Op.insertMany 1 ["b", "c"],
      Op.deleteOne 0] (fun _ => true)).1 (by decide),
   (c5_length_accounting [Op.insertOne 0 "a", Op.insertMany 1 ["b", "c"],
      Op.deleteOne 0] (fun _ => true)).2.1 (by decide),
   (c5_length_accounting [Op.insertOne 0 "a", Op.insertMany 1 ["b", "c"],
      Op.deleteOne 0] (fun _ => true)).2.2 (by decide)⟩

/-- C6: for the engine-backed variant with any acceptance behaviour of the
native engine, from a consistent state and an in-range start index,
`insertRules(s, rs)` returns the number of rules the engine accepted
(`(rs.filter accept).length ≤ rs.length`) and the accepted rules sit
contiguously at position `s` in their relative order from `rs`. -/
theorem c6_cssom_insertRules_count (accept : String → Bool)
    (st : CSSOMTag.State) (s : Int) (rs : List String)
    (hwf : CSSOMTag.Wf st) (h0 : 0 ≤ s) (h1 : s ≤ st.length) :
    CSSOMTag.insertRules accept st s rs
      = ((rs.filter accept).length,
         ⟨st.cssRules.take s.toNat ++ rs.filter accept ++ st.cssRules.drop s.toNat,
          st.length + ((rs.filter accept).length : Int)⟩) :=
  cssom_insertRules_filter rs accept st s hwf h0 h1

/-- C6 witness: an engine rejecting exactly the rule `"bad"` accepts two of
three batched rules, returns 2, and keeps `"a"`, `"b"` in order. -/
theorem c6_cssom_insertRules_count_witness :
    CSSOMTag.insertRules (fun r => r != "bad") CSSOMTag.fresh 0 ["a", "bad", "b"]
      = (2, ⟨["a", "b"], 2⟩) :=
  (c6_cssom_insertRules_count (fun r => r != "bad") CSSOMTag.fresh 0
    ["a", "bad", "b"] rfl (by decide) (by decide)).trans (by decide)

/-- C7: the concrete list-backed scenario of the spec, step by step: a
successful insert at 0, a rejected insert at 5, a two-rule batch at 1
returning 2, and a delete at 0, with the claimed lengths and reads. -/
theorem c7_virtual_scenario :
    VirtualTag.insertRule VirtualTag.fresh 0 "a\x7bcolor:red\x7d"
      = (true, ⟨["a\x7bcolor:red\x7d"], 1⟩) ∧
    VirtualTag.getRule ⟨["a\x7bcolor:red\x7d"], 1⟩ 0 = some "a\x7bcolor:red\x7d" ∧
    VirtualTag.insertRule ⟨["a\x7bcolor:red\x7d"], 1⟩ 5 "b\x7b\x7d"
      = (false, ⟨["a\x7bcolor:red\x7d"], 1⟩) ∧
    VirtualTag.insertRules ⟨["a\x7bcolor:red\x7d"], 1⟩ 1 ["c\x7b\x7d", "d\x7b\x7d"]
      = (2, ⟨["a\x7bcolor:red\x7d", "c\x7b\x7d", "d\x7b\x7d"], 3⟩) ∧
    VirtualTag.getRule ⟨["a\x7bcolor:red\x7d", "c\x7b\x7d", "d\x7b\x7d"], 3⟩ 1
      = some "c\x7b\x7d" ∧
    VirtualTag.getRule ⟨["a\x7bcolor:red\x7d", "c\x7b\x7d", "d\x7b\x7d"], 3⟩ 2
      = some "d\x7b\x7d" ∧
    VirtualTag.deleteRule ⟨["a\x7bcolor:red\x7d", "c\x7b\x7d", "d\x7b\x7d"], 3⟩ 0
      = ⟨["c\x7b\x7d", "d\x7b\x7d"], 2⟩ ∧
    VirtualTag.getRule ⟨["c\x7b\x7d", "d\x7b\x7d"], 2⟩ 0 = some "c\x7b\x7d" := by
  decide

/-- C8: the variant selector instantiates exactly one backend in the fixed
priority order: the server flag selects the list-backed variant, otherwise
the CSSOM flag selects the engine-backed variant, otherwise the node-backed
variant is constructed. -/
theorem c8_makeTag_priority (o : SheetOptions) :
    (o.isServer = true → makeTag o = Tag.virtualTag VirtualTag.fresh) ∧
    (o.isServer = false → o.useCSSOMInjection = true →
      makeTag o = Tag.cssomTag CSSOMTag.fresh) ∧
    (o.isServer = false → o.useCSSOMInjection = false →
      makeTag o = Tag.textTag TextTag.fresh) := by
  obtain ⟨s, u⟩ := o
  cases s <;> cases u <;> simp [makeTag]

/-- C8 witness: the three flag combinations select the three backends. -/
theorem c8_makeTag_priority_witness :
    makeTag ⟨true, true⟩ = Tag.virtualTag VirtualTag.fresh ∧
    makeTag ⟨false, true⟩ = Tag.cssomTag CSSOMTag.fresh ∧
    makeTag ⟨false, false⟩ = Tag.textTag TextTag.fresh :=
  ⟨(c8_makeTag_priority ⟨true, true⟩).1 rfl,
   (c8_makeTag_priority ⟨false, true⟩).2.1 rfl rfl,
   (c8_makeTag_priority ⟨false, false⟩).2.2 rfl rfl⟩

/-- C9: the node-backed batch insert performs no bounds check — for every
start index outside `[0, length]` (negative or above `length`) the whole
batch is appended at the end of the node list, `length` grows by
`rules.length`, and `rules.length` is returned. -/
theorem c9_text_insertRules_unchecked (st : TextTag.State) (s : Int)
    (rs : List String) (hwf : TextTag.Wf st) (h : s < 0 ∨ st.length < s) :
    TextTag.insertRules st s rs
      = (rs.length, ⟨st.nodes ++ rs, st.length + rs.length⟩) := by
  rw [TextTag.Wf] at hwf
  simp only [TextTag.insertRules]
  rw [domInsertBefore_of_out st.nodes s rs (by omega)]

/-- C9 witness: a batch at start index 5 on a fresh (empty) node-backed tag
still inserts both rules at the end and returns 2. -/
theorem c9_text_insertRules_unchecked_witness :
    TextTag.insertRules TextTag.fresh 5 ["a", "b"] = (2, ⟨["a", "b"], 2⟩) :=
  (c9_text_insertRules_unchecked TextTag.fresh 5 ["a", "b"] rfl
    (by decide)).trans (by decide)

/-- C10: the list-backed delete decrements `length` unconditionally — for a
consistent state and any index `≥ length`, the rules list is left unchanged
while `length` still drops by one, so the counter no longer matches the
store size afterwards. -/
theorem c10_virtual_deleteRule_out_of_range (st : VirtualTag.State) (i : Int)
    (hwf : VirtualTag.Wf st) (h : st.length ≤ i) :
    VirtualTag.deleteRule st i = ⟨st.rules, st.length - 1⟩ ∧
    ¬ VirtualTag.Wf (VirtualTag.deleteRule st i) := by
  rw [VirtualTag.Wf] at hwf
  have hd : spliceDelete st.rules i = st.rules := spliceDelete_of_ge _ _ (by omega)
  constructor
  · rw [VirtualTag.deleteRule, hd]
  · intro hcontra
    rw [VirtualTag.deleteRule, hd, VirtualTag.Wf] at hcontra
    simp at hcontra
    omega

/-- C10 witness: deleting index 0 of a fresh (empty) list-backed tag leaves
the store empty but drives `length` to `-1`, breaking the invariant. -/
theorem c10_virtual_deleteRule_out_of_range_witness :
    VirtualTag.deleteRule VirtualTag.fresh 0 = ⟨[], -1⟩ ∧
    ¬ VirtualTag.Wf (VirtualTag.deleteRule VirtualTag.fresh 0) :=
  c10_virtual_deleteRule_out_of_range VirtualTag.fresh 0 rfl (by decide)

end StyledSheet
